import Mathlib

/-!
Verification of the fintrack search-filter-sort engine.

The development shallowly embeds the transaction data model
(`src/src/interfaces`), the query filter of
`src/src/contexts/SearchContext.tsx` (`filteredTransactions`), the
column sort of `src/src/components/ui/TransactionsTable.tsx`
(`sortedData`, `handleSort`) and the type-cell status dispatch of the
same table.  JavaScript strings become `String`, JavaScript numbers on
the `amount` field become `Int`, `Array.prototype.filter` becomes
`List.filter`, and the (ES2019, required stable) `Array.prototype.sort`
becomes `List.mergeSort`.  The two locale date renderings
(`Date.prototype.toLocaleDateString`) are environment supplied, so the
filter is parameterised by two rendering functions `String → String`;
every theorem about the filter holds for all renderings.
-/

namespace FinTrack

/-- The transaction record, from the data model used by
`SearchContext.tsx` and `TransactionsTable.tsx` (fields `id`, `date`,
`remark`, `amount`, `currency`, `type`; `amount` is a signed number,
the rest are strings, `date` an opaque date string). -/
structure Transaction where
  id : Nat
  date : String
  remark : String
  amount : Int
  currency : String
  type : String
deriving DecidableEq

/-- `strStarts needle hay` models the check that `needle` occurs at the
beginning of `hay`, on character lists. -/
def strStarts : List Char → List Char → Bool
  | [], _ => true
  | _ :: _, [] => false
  | a :: as, b :: bs => a == b && strStarts as bs

/-- `subList needle hay` models JavaScript `hay.includes(needle)` on
character lists: `needle` occurs contiguously somewhere in `hay`. -/
def subList : List Char → List Char → Bool
  | needle, [] => needle.isEmpty
  | needle, c :: rest => strStarts needle (c :: rest) || subList needle rest

/-- `containsStr s pat` models JavaScript `s.includes(pat)`. -/
def containsStr (s pat : String) : Bool :=
  subList pat.data s.data

/-- JavaScript `String.prototype.toLowerCase`, modelled character by
character. -/
def jsToLower (s : String) : String :=
  (s.data.map Char.toLower).asString

/-- JavaScript `String.prototype.trim`: drops leading and trailing
whitespace. -/
def jsTrim (s : String) : String :=
  (((s.data.dropWhile Char.isWhitespace).reverse.dropWhile
      Char.isWhitespace).reverse).asString

theorem strStarts_iff (p : List Char) : ∀ l : List Char,
    strStarts p l = true ↔ ∃ v, l = p ++ v := by
  induction p with
  | nil => intro l; simp [strStarts]
  | cons a as ih =>
    intro l
    cases l with
    | nil => simp [strStarts]
    | cons b bs =>
      simp only [strStarts, Bool.and_eq_true, beq_iff_eq, ih, List.cons_append,
        List.cons.injEq]
      constructor
      · rintro ⟨rfl, v, rfl⟩
        exact ⟨v, rfl, rfl⟩
      · rintro ⟨v, rfl, rfl⟩
        exact ⟨rfl, v, rfl⟩

theorem subList_iff (p : List Char) : ∀ l : List Char,
    subList p l = true ↔ ∃ u v, l = u ++ p ++ v := by
  intro l
  induction l with
  | nil =>
    cases p with
    | nil => simp [subList]
    | cons c cs => simp [subList, List.isEmpty, eq_comm, List.append_eq_nil]
  | cons c rest ih =>
    rw [subList, Bool.or_eq_true, strStarts_iff, ih]
    constructor
    · rintro (⟨v, hv⟩ | ⟨u, v, huv⟩)
      · exact ⟨[], v, by simpa using hv⟩
      · exact ⟨c :: u, v, by simp [huv]⟩
    · rintro ⟨u, v, huv⟩
      cases u with
      | nil => exact Or.inl ⟨v, by simpa using huv⟩
      | cons d u' =>
        right
        rw [List.cons_append, List.cons_append, List.cons.injEq] at huv
        exact ⟨u', v, huv.2⟩

theorem containsStr_chars (s pat : String) :
    containsStr s pat = true ↔ ∃ u v, s.data = u ++ pat.data ++ v :=
  subList_iff pat.data s.data

/-- The list of searchable projections of a transaction, from
`SearchContext.tsx` lines 32–46: remark, type and currency lower-cased,
the amount via `Number.prototype.toString`, the two locale date
renderings (`r1`, `r2` stand for the environment's
`toLocaleDateString()` and the explicit `en-US` short-month form)
lower-cased, and the raw stored date string. -/
def searchableFields (r1 r2 : String → String) (t : Transaction) : List String :=
  [jsToLower t.remark,
   jsToLower t.type,
   jsToLower t.currency,
   toString t.amount,
   jsToLower (r1 t.date),
   jsToLower (r2 t.date),
   t.date]

/-- The match test of `SearchContext.tsx` line 48:
`searchableFields.some((field) => field.includes(query))`. -/
def matchesQuery (r1 r2 : String → String) (t : Transaction) (query : String) : Bool :=
  (searchableFields r1 r2 t).any fun field => containsStr field query

/-- The filter of `SearchContext.tsx` lines 24–50: if the trimmed query
is empty the input collection is returned itself, otherwise the
collection is filtered by `matchesQuery` against
`searchQuery.toLowerCase().trim()`. -/
def filterTransactions (r1 r2 : String → String) (all : List Transaction)
    (searchQuery : String) : List Transaction :=
  if jsTrim searchQuery = "" then all
  else
    let query := jsTrim (jsToLower searchQuery)
    all.filter fun t => matchesQuery r1 r2 t query

theorem filter_mem_helper (r1 r2 : String → String) (all : List Transaction)
    (q : String) (t : Transaction) (hq : jsTrim q ≠ "") (ht : t ∈ all) :
    t ∈ filterTransactions r1 r2 all q ↔
      ∃ f ∈ searchableFields r1 r2 t,
        ∃ u v : List Char, f.data = u ++ (jsTrim (jsToLower q)).data ++ v := by
  rw [filterTransactions, if_neg hq]
  simp only [List.mem_filter, ht, true_and, matchesQuery, List.any_eq_true]
  constructor
  · rintro ⟨f, hf, h⟩
    exact ⟨f, hf, (containsStr_chars f _).mp h⟩
  · rintro ⟨f, hf, h⟩
    exact ⟨f, hf, (containsStr_chars f _).mpr h⟩

/-- The sortable column keys, the closed set enumerated by
`TABLE_COLUMNS` (src constants): `date`, `remark`, `amount`,
`currency`, `type`. -/
inductive SortKey
  | date
  | remark
  | amount
  | currency
  | type
deriving DecidableEq

/-- Sort direction, `'asc' | 'desc'` of `table.interface.ts`. -/
inductive SortOrder
  | asc
  | desc
deriving DecidableEq

/-- `SortConfig` of `table.interface.ts`: the active key and order. -/
structure SortConfig where
  key : SortKey
  order : SortOrder
deriving DecidableEq

/-- `a[sortConfig.key]`: the value of a transaction at a column key.
The value is a number for `amount` and a string for the other columns,
so it lands in the sum `Int ⊕ String` (the two sides are never compared
with each other: both operands always come from the same key). -/
def fieldVal : SortKey → Transaction → Int ⊕ String
  | .amount, t => .inl t.amount
  | .date, t => .inr t.date
  | .remark, t => .inr t.remark
  | .currency, t => .inr t.currency
  | .type, t => .inr t.type

/-- JavaScript `<` on two column values: numeric for numbers,
lexicographic for strings.  The mixed cases are unreachable (a fixed
key always produces the same side of the sum). -/
def vLtB : Int ⊕ String → Int ⊕ String → Bool
  | .inl a, .inl b => decide (a < b)
  | .inr a, .inr b => decide (a < b)
  | _, _ => false

/-- The comparator of `TransactionsTable.tsx` lines 35–48: `-1` when
`aValue < bValue` (flipped to `1` for descending), `1` when
`aValue > bValue` (flipped to `-1`), else `0`. -/
def compareFn (cfg : SortConfig) (a b : Transaction) : Int :=
  let aValue := fieldVal cfg.key a
  let bValue := fieldVal cfg.key b
  if vLtB aValue bValue then (if cfg.order == SortOrder.asc then -1 else 1)
  else if vLtB bValue aValue then (if cfg.order == SortOrder.asc then 1 else -1)
  else 0

/-- The non-positive-comparator relation that a JavaScript stable sort
establishes between elements of its output. -/
def sortLe (cfg : SortConfig) (a b : Transaction) : Bool :=
  decide (compareFn cfg a b ≤ 0)

/-- `sortedData` of `TransactionsTable.tsx` lines 34–49:
`[...filteredTransactions].sort(comparator)`.  `Array.prototype.sort`
is required stable since ES2019, hence `List.mergeSort`. -/
def sortedData (cfg : SortConfig) (l : List Transaction) : List Transaction :=
  l.mergeSort (sortLe cfg)

/-- The `≤` on column values named by the spec: numeric order on
`amount` values, lexicographic order on string values. -/
def vLe : Int ⊕ String → Int ⊕ String → Prop
  | .inl a, .inl b => a ≤ b
  | .inr a, .inr b => a ≤ b
  | _, _ => False

/-- The order the spec demands of adjacent sorted pairs:
`a[key] ≤ b[key]` ascending, `a[key] ≥ b[key]` descending. -/
def sortRel (cfg : SortConfig) (a b : Transaction) : Prop :=
  match cfg.order with
  | .asc => vLe (fieldVal cfg.key a) (fieldVal cfg.key b)
  | .desc => vLe (fieldVal cfg.key b) (fieldVal cfg.key a)

theorem jsCmpLe_asc {α : Type} [LinearOrder α]
    [DecidableRel (LT.lt : α → α → Prop)] (x y : α) :
    ((if x < y then (-1 : Int) else if y < x then 1 else 0) ≤ 0) ↔ x ≤ y := by
  by_cases h1 : x < y
  · simp only [if_pos h1]
    exact iff_of_true (by norm_num) h1.le
  · by_cases h2 : y < x
    · simp only [if_neg h1, if_pos h2]
      exact iff_of_false (by norm_num) (not_le.mpr h2)
    · simp only [if_neg h1, if_neg h2]
      exact iff_of_true le_rfl (not_lt.mp h2)

theorem jsCmpLe_desc {α : Type} [LinearOrder α]
    [DecidableRel (LT.lt : α → α → Prop)] (x y : α) :
    ((if x < y then (1 : Int) else if y < x then -1 else 0) ≤ 0) ↔ y ≤ x := by
  by_cases h1 : x < y
  · simp only [if_pos h1]
    exact iff_of_false (by norm_num) (not_le.mpr h1)
  · simp only [if_neg h1]
    by_cases h2 : y < x
    · simp only [if_pos h2]
      exact iff_of_true (by norm_num) h2.le
    · simp only [if_neg h2]
      exact iff_of_true le_rfl (not_lt.mp h1)

theorem sortLe_eq_true_iff (cfg : SortConfig) (a b : Transaction) :
    sortLe cfg a b = true ↔ sortRel cfg a b := by
  rcases cfg with ⟨k, o⟩
  cases k <;> cases o <;>
    simp only [sortLe, compareFn, sortRel, fieldVal, vLtB, vLe,
      decide_eq_true_eq, beq_self_eq_true, if_true, reduceCtorEq,
      beq_iff_eq, if_false, decide_True, decide_False,
      Bool.false_eq_true] <;>
    first
      | exact jsCmpLe_asc _ _
      | exact jsCmpLe_desc _ _

theorem sortLe_total (cfg : SortConfig) (a b : Transaction) :
    sortLe cfg a b || sortLe cfg b a := by
  rw [Bool.or_eq_true, sortLe_eq_true_iff, sortLe_eq_true_iff]
  rcases cfg with ⟨k, o⟩
  cases k <;> cases o <;> simp only [sortRel, fieldVal, vLe] <;>
    exact le_total _ _

theorem sortLe_trans (cfg : SortConfig) (a b c : Transaction) :
    sortLe cfg a b → sortLe cfg b c → sortLe cfg a c := by
  rw [sortLe_eq_true_iff, sortLe_eq_true_iff, sortLe_eq_true_iff]
  rcases cfg with ⟨k, o⟩
  cases k <;> cases o <;> simp only [sortRel, fieldVal, vLe] <;>
    first
      | exact fun h1 h2 => le_trans h1 h2
      | exact fun h1 h2 => le_trans h2 h1

/-- `handleSort` of `TransactionsTable.tsx` lines 27–32: the clicked
key becomes active; the order is `asc` exactly when the clicked key was
already active with order `desc`, else `desc`. -/
def handleSort (current : SortConfig) (key : SortKey) : SortConfig :=
  { key := key,
    order := if current.key == key && current.order == SortOrder.desc
             then SortOrder.asc else SortOrder.desc }

/-- The two visual states of `StatusTag` (`'success' | 'error'`). -/
inductive Status
  | success
  | error
deriving DecidableEq

/-- The type-cell dispatch of `TransactionsTable.tsx` lines 100–109:
`transaction.type === 'Credit' ? 'success' : 'error'`. -/
def typeCellStatus (t : Transaction) : Status :=
  if t.type = "Credit" then Status.success else Status.error

/-- A JavaScript array value: an index into the heap of array
contents. -/
structure ArrayRef where
  ref : Nat
deriving DecidableEq

/-- A heap of transaction arrays: contents per index, plus the next
fresh index. -/
structure ArrayHeap where
  contents : Nat → List Transaction
  next : Nat

/-- The spread `[...xs]`: allocates a fresh array holding a copy of the
contents of `xs`. -/
def jsSpread (h : ArrayHeap) (a : ArrayRef) : ArrayRef × ArrayHeap :=
  (⟨h.next⟩,
   { contents := fun i => if i = h.next then h.contents a.ref else h.contents i,
     next := h.next + 1 })

/-- `Array.prototype.sort(comparator)`: sorts the given array in
place (stably, per ES2019) and returns it. -/
def jsSortInPlace (h : ArrayHeap) (a : ArrayRef) (cfg : SortConfig) : ArrayHeap :=
  { contents := fun i =>
      if i = a.ref then (h.contents a.ref).mergeSort (sortLe cfg)
      else h.contents i,
    next := h.next }

/-- The full `sortedData` expression of `TransactionsTable.tsx` line
35, `[...filteredTransactions].sort(...)`, at the level of array
references: spread the source array into a fresh one, then sort that
fresh array in place. -/
def sortedDataProg (h : ArrayHeap) (src : ArrayRef) (cfg : SortConfig) :
    ArrayRef × ArrayHeap :=
  let spread := jsSpread h src
  (spread.1, jsSortInPlace spread.2 spread.1 cfg)

theorem digitChar_digit (d : Nat) (h : d < 10) :
    (Nat.digitChar d).isDigit = true := by
  interval_cases d <;> decide

theorem toDigitsCore_digit :
    ∀ (fuel n : Nat) (ds : List Char), (∀ c ∈ ds, c.isDigit = true) →
      ∀ c ∈ Nat.toDigitsCore 10 fuel n ds, c.isDigit = true := by
  intro fuel
  induction fuel with
  | zero =>
    intro n ds h
    simpa [Nat.toDigitsCore] using h
  | succ fuel ih =>
    intro n ds h
    have hd : (Nat.digitChar (n % 10)).isDigit = true :=
      digitChar_digit _ (Nat.mod_lt _ (by norm_num))
    have hds : ∀ c ∈ Nat.digitChar (n % 10) :: ds, c.isDigit = true := by
      intro c hc
      rcases List.mem_cons.mp hc with h1 | h2
      · exact h1 ▸ hd
      · exact h c h2
    rw [Nat.toDigitsCore]
    split
    · exact hds
    · exact ih _ _ hds

theorem natRepr_digit (n : Nat) : ∀ c ∈ (Nat.repr n).data, c.isDigit = true :=
  toDigitsCore_digit (n + 1) n [] (by simp)

theorem intRepr_chars (i : Int) :
    ∀ c ∈ (Int.repr i).data, c = '-' ∨ c.isDigit = true := by
  cases i with
  | ofNat m =>
    intro c hc
    exact Or.inr (natRepr_digit m c hc)
  | negSucc m =>
    intro c hc
    have hdata : (Int.repr (Int.negSucc m)).data = '-' :: (Nat.repr (m + 1)).data := by
      show ("-" ++ Nat.repr (m + 1)).data = _
      rw [String.data_append]
      rfl
    rw [hdata] at hc
    rcases List.mem_cons.mp hc with h1 | h2
    · exact Or.inl h1
    · exact Or.inr (natRepr_digit (m + 1) c h2)

theorem intRepr_neg_dash (i : Int) (h : i < 0) : '-' ∈ (Int.repr i).data := by
  cases i with
  | ofNat m => exact absurd h (not_lt.mpr (Int.ofNat_nonneg m))
  | negSucc m =>
    have hdata : (Int.repr (Int.negSucc m)).data = '-' :: (Nat.repr (m + 1)).data := by
      show ("-" ++ Nat.repr (m + 1)).data = _
      rw [String.data_append]
      rfl
    rw [hdata]
    exact List.mem_cons_self _ _

theorem toString_int_eq (i : Int) : toString i = Int.repr i := rfl

theorem vLe_refl (x : Int ⊕ String) : vLe x x := by
  cases x <;> simp [vLe]

/-- A sample credit transaction used to witness the theorems below. -/
def sampleCredit : Transaction :=
  { id := 1, date := "01-01-2025", remark := "Salary", amount := 100,
    currency := "USD", type := "Credit" }

/-- A sample debit transaction used to witness the theorems below. -/
def sampleDebit : Transaction :=
  { id := 2, date := "02-01-2025", remark := "Groceries", amount := -50,
    currency := "USD", type := "Debit" }

/-- A date rendering producing an en-US short-month form with a comma,
as `toLocaleDateString('en-US', \x7bmonth: 'short', ...\x7d)` does. -/
def commaRender : String → String := fun _ => "Jan 2, 2025"

/-- C1: for a query whose trimmed form is non-empty, a transaction of
the collection is in the filter result exactly when at least one of its
searchable projections contains the trimmed lower-cased query as a
contiguous substring. -/
theorem filteredTransactions_mem_iff (r1 r2 : String → String)
    (all : List Transaction) (q : String) (t : Transaction)
    (hq : jsTrim q ≠ "") (ht : t ∈ all) :
    t ∈ filterTransactions r1 r2 all q ↔
      ∃ f ∈ searchableFields r1 r2 t,
        ∃ u v : List Char, f.data = u ++ (jsTrim (jsToLower q)).data ++ v :=
  filter_mem_helper r1 r2 all q t hq ht

theorem filteredTransactions_mem_iff_witness :
    sampleCredit ∈ filterTransactions id id [sampleCredit] "Credit" :=
  (filteredTransactions_mem_iff id id [sampleCredit] "Credit" sampleCredit
    (by decide) (List.mem_singleton.mpr rfl)).mpr
    ⟨"credit", by decide, [], [], by decide⟩

/-- C2: every adjacent pair of the sorted output is ordered by the
natural order of the active column's value, ascending for `asc` and
descending for `desc`. -/
theorem sortedData_adjacent_sorted (cfg : SortConfig) (l : List Transaction) :
    (sortedData cfg l).Chain' (sortRel cfg) := by
  have hp : (sortedData cfg l).Pairwise (fun a b => sortLe cfg a b = true) :=
    @List.sorted_mergeSort Transaction (sortLe cfg)
      (fun a b c => sortLe_trans cfg a b c)
      (fun a b => sortLe_total cfg a b) l
  exact (hp.imp fun h => (sortLe_eq_true_iff _ _ _).mp h).chain'

/-- C3: clicking a column that is not active selects it with order
`desc`; clicking the active column keeps it and flips the order. -/
theorem handleSort_toggle (current : SortConfig) (key : SortKey) :
    (current.key ≠ key → handleSort current key = ⟨key, SortOrder.desc⟩) ∧
    (current.key = key → handleSort current key =
      ⟨key, match current.order with
            | SortOrder.asc => SortOrder.desc
            | SortOrder.desc => SortOrder.asc⟩) := by
  constructor
  · intro h
    simp [handleSort, h]
  · intro h
    cases horder : current.order <;> simp [handleSort, h, horder]

theorem handleSort_toggle_witness :
    handleSort ⟨SortKey.amount, SortOrder.asc⟩ SortKey.amount
      = ⟨SortKey.amount, SortOrder.desc⟩ ∧
    handleSort ⟨SortKey.amount, SortOrder.asc⟩ SortKey.date
      = ⟨SortKey.date, SortOrder.desc⟩ :=
  ⟨(handleSort_toggle ⟨SortKey.amount, SortOrder.asc⟩ SortKey.amount).2 rfl,
   (handleSort_toggle ⟨SortKey.amount, SortOrder.asc⟩ SortKey.date).1 (by decide)⟩

/-- C4: a query that trims to the empty string leaves the collection
unchanged — the filter returns its input itself (the embedding of the
source's early `return transactionsData`, i.e. the same reference). -/
theorem filter_identity_empty_query (r1 r2 : String → String)
    (all : List Transaction) (q : String) (hq : jsTrim q = "") :
    filterTransactions r1 r2 all q = all := by
  rw [filterTransactions, if_pos hq]

theorem filter_identity_empty_query_witness :
    filterTransactions id id [sampleCredit, sampleDebit] "   "
      = [sampleCredit, sampleDebit] :=
  filter_identity_empty_query id id [sampleCredit, sampleDebit] "   " (by decide)

/-- C5: the sort is stable — two transactions with equal values on the
active key keep their relative input order, for either direction. -/
theorem sortedData_stable (cfg : SortConfig) (l : List Transaction)
    (a b : Transaction) (heq : fieldVal cfg.key a = fieldVal cfg.key b)
    (hsub : [a, b].Sublist l) : [a, b].Sublist (sortedData cfg l) := by
  refine List.pair_sublist_mergeSort
    (fun x y z => sortLe_trans cfg x y z)
    (fun x y => sortLe_total cfg x y) ?_ hsub
  rw [sortLe_eq_true_iff]
  rcases cfg with ⟨k, o⟩
  cases o <;> simp only [sortRel] <;> rw [heq] <;> exact vLe_refl _

theorem sortedData_stable_witness :
    [sampleCredit, sampleDebit].Sublist
      (sortedData ⟨SortKey.currency, SortOrder.desc⟩ [sampleCredit, sampleDebit]) :=
  sortedData_stable ⟨SortKey.currency, SortOrder.desc⟩ [sampleCredit, sampleDebit]
    sampleCredit sampleDebit (by decide) (List.Sublist.refl _)

/-- C6: the searchable amount projection is the amount's decimal
rendering — sign and magnitude only, every character a `-` or a digit,
with a leading `-` for negative amounts, and no currency symbol — and a
non-empty query found inside the amount projection or one of the date
projections makes the transaction match the filter. -/
theorem amount_projection_matches (r1 r2 : String → String)
    (all : List Transaction) (t : Transaction) (q : String)
    (ht : t ∈ all) (hq : jsTrim q ≠ "")
    (hocc : ∃ f ∈ [toString t.amount, jsToLower (r1 t.date),
                   jsToLower (r2 t.date), t.date],
        ∃ u v : List Char, f.data = u ++ (jsTrim (jsToLower q)).data ++ v) :
    toString t.amount = Int.repr t.amount ∧
    toString t.amount ∈ searchableFields r1 r2 t ∧
    (∀ c ∈ (toString t.amount).data, c = '-' ∨ c.isDigit = true) ∧
    (t.amount < 0 → '-' ∈ (toString t.amount).data) ∧
    t ∈ filterTransactions r1 r2 all q := by
  refine ⟨rfl, by simp [searchableFields], intRepr_chars t.amount,
    intRepr_neg_dash t.amount, ?_⟩
  rcases hocc with ⟨f, hf, huv⟩
  refine (filter_mem_helper r1 r2 all q t hq ht).mpr ⟨f, ?_, huv⟩
  simp only [List.mem_cons, List.not_mem_nil, or_false] at hf
  rcases hf with rfl | rfl | rfl | rfl <;> simp [searchableFields]

theorem amount_projection_matches_witness :
    toString sampleDebit.amount = Int.repr sampleDebit.amount ∧
    toString sampleDebit.amount ∈ searchableFields id commaRender sampleDebit ∧
    (∀ c ∈ (toString sampleDebit.amount).data, c = '-' ∨ c.isDigit = true) ∧
    (sampleDebit.amount < 0 → '-' ∈ (toString sampleDebit.amount).data) ∧
    sampleDebit ∈ filterTransactions id commaRender [sampleDebit] "," :=
  amount_projection_matches id commaRender [sampleDebit] sampleDebit ","
    (List.mem_singleton.mpr rfl) (by decide)
    ⟨"jan 2, 2025", by decide, "jan 2".data, " 2025".data, by decide⟩

/-- C7: the filter result is a sublist of the input collection, so any
two transactions in the result keep the relative order they had in the
input — the filter performs no reordering. -/
theorem filter_preserves_order (r1 r2 : String → String)
    (all : List Transaction) (q : String) :
    (filterTransactions r1 r2 all q).Sublist all := by
  rw [filterTransactions]
  split
  · exact List.Sublist.refl all
  · exact List.filter_sublist all

/-- C8: filter and sort are deterministic — two runs on inputs that are
equal by value produce outputs that are equal by value. -/
theorem filter_sort_deterministic (r1 r2 r1' r2' : String → String)
    (all all' l l' : List Transaction) (q q' : String) (cfg cfg' : SortConfig)
    (h1 : r1 = r1') (h2 : r2 = r2') (h3 : all = all') (h4 : q = q')
    (h5 : l = l') (h6 : cfg = cfg') :
    filterTransactions r1 r2 all q = filterTransactions r1' r2' all' q' ∧
    sortedData cfg l = sortedData cfg' l' := by
  subst h1; subst h2; subst h3; subst h4; subst h5; subst h6
  exact ⟨rfl, rfl⟩

theorem filter_sort_deterministic_witness :
    filterTransactions id id [sampleCredit] "x" = filterTransactions id id [sampleCredit] "x" ∧
    sortedData ⟨SortKey.date, SortOrder.desc⟩ [sampleCredit] =
      sortedData ⟨SortKey.date, SortOrder.desc⟩ [sampleCredit] :=
  filter_sort_deterministic id id id id [sampleCredit] [sampleCredit]
    [sampleCredit] [sampleCredit] "x" "x"
    ⟨SortKey.date, SortOrder.desc⟩ ⟨SortKey.date, SortOrder.desc⟩
    rfl rfl rfl rfl rfl rfl

/-- C9: `sortedData` spreads the source array into a fresh one and
sorts only the copy: the result is a new array (different reference),
the source array's contents after the call are exactly its contents
before, and the copy holds the sorted sequence. -/
theorem sortedData_no_mutation (h : ArrayHeap) (src : ArrayRef)
    (cfg : SortConfig) (hvalid : src.ref < h.next) :
    (sortedDataProg h src cfg).1.ref ≠ src.ref ∧
    (sortedDataProg h src cfg).2.contents src.ref = h.contents src.ref ∧
    (sortedDataProg h src cfg).2.contents (sortedDataProg h src cfg).1.ref =
      sortedData cfg (h.contents src.ref) := by
  have hne : src.ref ≠ h.next := Nat.ne_of_lt hvalid
  refine ⟨?_, ?_, ?_⟩
  · simpa [sortedDataProg, jsSpread] using fun e => hne e.symm
  · simp [sortedDataProg, jsSpread, jsSortInPlace, hne]
  · simp [sortedDataProg, jsSpread, jsSortInPlace, sortedData]

/-- A heap with one allocated array, to witness `sortedData_no_mutation`. -/
def witnessHeap : ArrayHeap :=
  { contents := fun _ => [sampleDebit, sampleCredit], next := 1 }

theorem sortedData_no_mutation_witness :
    (sortedDataProg witnessHeap ⟨0⟩ ⟨SortKey.amount, SortOrder.asc⟩).1.ref
        ≠ (⟨0⟩ : ArrayRef).ref ∧
    (sortedDataProg witnessHeap ⟨0⟩ ⟨SortKey.amount, SortOrder.asc⟩).2.contents
        (⟨0⟩ : ArrayRef).ref = witnessHeap.contents (⟨0⟩ : ArrayRef).ref ∧
    (sortedDataProg witnessHeap ⟨0⟩ ⟨SortKey.amount, SortOrder.asc⟩).2.contents
        (sortedDataProg witnessHeap ⟨0⟩ ⟨SortKey.amount, SortOrder.asc⟩).1.ref =
      sortedData ⟨SortKey.amount, SortOrder.asc⟩
        (witnessHeap.contents (⟨0⟩ : ArrayRef).ref) :=
  sortedData_no_mutation witnessHeap ⟨0⟩ ⟨SortKey.amount, SortOrder.asc⟩
    (by decide)

/-- C10: the type cell carries the `success` status exactly when the
transaction's type is the exact string `"Credit"`; any other type value
is rendered with the `error` status. -/
theorem typeCellStatus_credit_iff (t : Transaction) :
    (typeCellStatus t = Status.success ↔ t.type = "Credit") ∧
    (t.type ≠ "Credit" → typeCellStatus t = Status.error) := by
  by_cases h : t.type = "Credit" <;> simp [typeCellStatus, h]

theorem typeCellStatus_credit_iff_witness :
    typeCellStatus sampleDebit = Status.error :=
  (typeCellStatus_credit_iff sampleDebit).2 (by decide)

end FinTrack
